import Mathlib

/-!
# Verification of `parser_dorm` (`src/mabelast.py`)

A shallow embedding of the drom.ru catalog scraper:

* `fetch_url` — the retry/timeout HTTP helper (`mabelast.py` lines 32-56),
  modelled over an environment `Nat → AttemptOutcome` giving the outcome of
  each GET attempt (a response with a status code, or a network exception).
* `parse_car_generation_page` — the trim-table parser (lines 162-220),
  modelled over an abstract page: the optional matched table as a list of
  rows, each row carrying its `<th>` cells (text, has-colspan flag) and its
  `<td>` cell texts.
* `save_data_to_excel` — the accumulator snapshot (lines 222-229), modelled
  as a pure function from the accumulator to the written spreadsheet.
* a lock-granularity interleaving semantics for the shared accumulator
  (`all_data` / `file_lock`, lines 26-30): each lock-guarded critical
  section (one append, or one whole snapshot save) is one atomic step.

Python dicts are modelled as association lists with insert-or-update
semantics (`dictSet`); `str.strip` as `pyStrip` and `re.sub(r'\s+',' ',·)`
as `collapseWS`, both over the character list with `Char.isWhitespace` as
the whitespace class.
-/

set_option linter.unusedVariables false
set_option linter.unnecessarySeqFocus false

/-- `MAX_RETRIES = 50` (`mabelast.py` line 21). -/
def MAX_RETRIES : Nat := 50

/-- `RETRY_DELAY = 5` seconds (`mabelast.py` line 23). -/
def RETRY_DELAY : Nat := 5

/-- `SAVE_INTERVAL = 20` seconds (`mabelast.py` line 20). -/
def SAVE_INTERVAL : Nat := 20

/-- An HTTP response as far as `fetch_url` inspects it: its status code,
plus the page body (opaque to the fetcher). -/
structure Response where
  status_code : Nat
  text : String
deriving Repr, DecidableEq

/-- Outcome of one GET attempt: a response, or a network-level exception
(`requests.exceptions.RequestException`). -/
inductive AttemptOutcome where
  | resp (r : Response)
  | exc
deriving Repr, DecidableEq

/-- The observable trace of one `fetch_url` call: the returned value
(`some` response or `None`), the number of GET attempts performed, and the
number of fixed-delay (`RETRY_DELAY`-second) sleeps performed. -/
structure FetchTrace where
  result : Option Response
  attempts : Nat
  sleeps : Nat
deriving Repr, DecidableEq

/-- `status in [429, 503, 443]` (`mabelast.py` line 45). -/
def retryableStatus (c : Nat) : Bool :=
  c == 429 || c == 503 || c == 443

/-- A retried attempt outcome: a network exception, or a response whose
status is in the retryable set. -/
def retryableOutcome : AttemptOutcome → Bool
  | .exc => true
  | .resp r => retryableStatus r.status_code

/-- The `for attempt in range(MAX_RETRIES)` loop of `fetch_url`
(lines 37-53), from attempt index `i` with `fuel` iterations left.
Status 200 returns the response; a retryable status sleeps and continues;
any other status returns `None` at once; an exception sleeps and continues;
an exhausted loop returns `None` (line 56). -/
def fetch_url_from (outcomes : Nat → AttemptOutcome) : Nat → Nat → FetchTrace
  | _, 0 => ⟨none, 0, 0⟩
  | i, fuel + 1 =>
    match outcomes i with
    | .resp r =>
      if r.status_code == 200 then ⟨some r, 1, 0⟩
      else if retryableStatus r.status_code then
        let t := fetch_url_from outcomes (i + 1) fuel
        ⟨t.result, t.attempts + 1, t.sleeps + 1⟩
      else ⟨none, 1, 0⟩
    | .exc =>
      let t := fetch_url_from outcomes (i + 1) fuel
      ⟨t.result, t.attempts + 1, t.sleeps + 1⟩

/-- `fetch_url` (`mabelast.py` lines 32-56) over an attempt environment. -/
def fetch_url (outcomes : Nat → AttemptOutcome) : FetchTrace :=
  fetch_url_from outcomes 0 MAX_RETRIES

theorem retryableStatus_ne_200 {c : Nat} (h : retryableStatus c = true) :
    (c == 200) = false := by
  simp only [retryableStatus, Bool.or_eq_true, beq_iff_eq] at h
  rcases h with (h | h) | h <;> simp [h]

/-- Retryable outcomes on attempts `i, …, i+k-1` and a 200 response on
attempt `i+k` yield that response after `k+1` attempts and `k` sleeps. -/
theorem fetch_url_from_eventually_ok (outcomes : Nat → AttemptOutcome)
    (r : Response) (hr : r.status_code = 200) :
    ∀ (k i fuel : Nat), k < fuel →
      (∀ j, j < k → retryableOutcome (outcomes (i + j)) = true) →
      outcomes (i + k) = .resp r →
      fetch_url_from outcomes i fuel = ⟨some r, k + 1, k⟩ := by
  intro k
  induction k with
  | zero =>
    intro i fuel hfuel _ hok
    match fuel, hfuel with
    | fuel + 1, _ =>
      simp only [Nat.add_zero] at hok
      simp [fetch_url_from, hok, hr]
  | succ k ih =>
    intro i fuel hfuel hretry hok
    match fuel, hfuel with
    | fuel + 1, hfuel =>
      have h0 : retryableOutcome (outcomes i) = true := by
        have := hretry 0 (Nat.succ_pos k)
        simpa using this
      have hrec : fetch_url_from outcomes (i + 1) fuel = ⟨some r, k + 1, k⟩ := by
        apply ih (i + 1) fuel (Nat.lt_of_succ_lt_succ hfuel)
        · intro j hj
          have := hretry (j + 1) (Nat.succ_lt_succ hj)
          simpa [Nat.add_assoc, Nat.add_comm 1 j] using this
        · have : i + 1 + k = i + (k + 1) := by omega
          rw [this]; exact hok
      cases hout : outcomes i with
      | exc => simp [fetch_url_from, hout, hrec]
      | resp r' =>
        have hretry' : retryableStatus r'.status_code = true := by
          simpa [retryableOutcome, hout] using h0
        simp [fetch_url_from, hout, retryableStatus_ne_200 hretry', hretry', hrec]

/-- Retryable outcomes on every attempt in the window exhaust the loop:
`None` after `fuel` attempts and `fuel` sleeps. -/
theorem fetch_url_from_all_retryable (outcomes : Nat → AttemptOutcome) :
    ∀ (fuel i : Nat),
      (∀ j, j < fuel → retryableOutcome (outcomes (i + j)) = true) →
      fetch_url_from outcomes i fuel = ⟨none, fuel, fuel⟩ := by
  intro fuel
  induction fuel with
  | zero => intro i _; simp [fetch_url_from]
  | succ fuel ih =>
    intro i hretry
    have h0 : retryableOutcome (outcomes i) = true := by
      have := hretry 0 (Nat.succ_pos fuel)
      simpa using this
    have hrec : fetch_url_from outcomes (i + 1) fuel = ⟨none, fuel, fuel⟩ := by
      apply ih
      intro j hj
      have := hretry (j + 1) (Nat.succ_lt_succ hj)
      simpa [Nat.add_assoc, Nat.add_comm 1 j] using this
    cases hout : outcomes i with
    | exc => simp [fetch_url_from, hout, hrec]
    | resp r' =>
      have hretry' : retryableStatus r'.status_code = true := by
        simpa [retryableOutcome, hout] using h0
      simp [fetch_url_from, hout, retryableStatus_ne_200 hretry', hretry', hrec]

/-- **C1.** For a URL whose responses have status 429, 503 or 443 on each of
the first `N-1` attempts and status 200 on attempt `N` (with `1 ≤ N ≤ 50`),
`fetch_url` returns that successful response, performing exactly `N`
attempts and exactly `N-1` fixed-delay (`RETRY_DELAY = 5` second) sleeps,
and makes no further attempt after the success. -/
theorem fetch_url_retries_then_succeeds (outcomes : Nat → AttemptOutcome)
    (N : Nat) (r : Response)
    (hN1 : 1 ≤ N) (hN50 : N ≤ MAX_RETRIES)
    (hretry : ∀ j, j < N - 1 → ∃ r', outcomes j = .resp r' ∧
      retryableStatus r'.status_code = true)
    (hok : outcomes (N - 1) = .resp r) (h200 : r.status_code = 200) :
    fetch_url outcomes = ⟨some r, N, N - 1⟩ := by
  have h := fetch_url_from_eventually_ok outcomes r h200 (N - 1) 0 MAX_RETRIES
    (by omega)
    (by
      intro j hj
      obtain ⟨r', hr', hst⟩ := hretry j (by simpa using hj)
      simp [retryableOutcome, Nat.zero_add, hr', hst])
    (by simpa using hok)
  have hN : N - 1 + 1 = N := by omega
  rw [fetch_url, h, hN]

/-- Witness for C1 at `N = 3`: 429 then 503, then a 200 response. -/
theorem fetch_url_retries_then_succeeds_witness :
    fetch_url (fun j => if j = 0 then .resp ⟨429, ""⟩
      else if j = 1 then .resp ⟨503, ""⟩ else .resp ⟨200, "page"⟩)
      = ⟨some ⟨200, "page"⟩, 3, 2⟩ := by
  apply fetch_url_retries_then_succeeds _ 3 ⟨200, "page"⟩
    (by decide) (by decide)
  · intro j hj
    match j, hj with
    | 0, _ => exact ⟨⟨429, ""⟩, by decide, by decide⟩
    | 1, _ => exact ⟨⟨503, ""⟩, by decide, by decide⟩
  · decide
  · decide

/-- **C2.** For a URL whose every attempt has a retryable outcome — an HTTP
429 (or 503/443) response, or a network-level exception, counted against
the same cap — `fetch_url` performs exactly `MAX_RETRIES = 50` attempts
and then signals failure by returning `None`. -/
theorem fetch_url_exhausts_cap (outcomes : Nat → AttemptOutcome)
    (hretry : ∀ j, j < MAX_RETRIES → retryableOutcome (outcomes j) = true) :
    fetch_url outcomes = ⟨none, 50, 50⟩ := by
  have h := fetch_url_from_all_retryable outcomes MAX_RETRIES 0
    (by intro j hj; simpa using hretry j hj)
  rw [fetch_url, h]
  rfl

/-- Witness for C2: always 429, except a network exception on attempt 8. -/
theorem fetch_url_exhausts_cap_witness :
    fetch_url (fun j => if j = 7 then .exc else .resp ⟨429, ""⟩)
      = ⟨none, 50, 50⟩ := by
  apply fetch_url_exhausts_cap
  intro j hj
  by_cases h : j = 7 <;> simp [h, retryableOutcome, retryableStatus]

/-- **C3.** For a URL whose first response has a status that is neither 200
nor in the retryable set {429, 503, 443} (for example 404), `fetch_url`
signals failure (`None`) after exactly 1 attempt, with no retry and no
delay sleep. -/
theorem fetch_url_aborts_non_retryable (outcomes : Nat → AttemptOutcome)
    (r : Response) (h0 : outcomes 0 = .resp r)
    (h200 : r.status_code ≠ 200)
    (hnr : retryableStatus r.status_code = false) :
    fetch_url outcomes = ⟨none, 1, 0⟩ := by
  have h200' : (r.status_code == 200) = false := by simpa using h200
  rw [fetch_url]
  show fetch_url_from outcomes 0 (49 + 1) = _
  simp [fetch_url_from, h0, h200', hnr]

/-- Witness for C3: a 404 response on the first attempt. -/
theorem fetch_url_aborts_non_retryable_witness :
    fetch_url (fun _ => .resp ⟨404, ""⟩) = ⟨none, 1, 0⟩ := by
  apply fetch_url_aborts_non_retryable _ ⟨404, ""⟩ rfl (by decide) (by decide)

/-! ## Records (Python dicts) and string normalisation -/

/-- A Record: one Python dict mapping field names to values, as an ordered
association list with at most one entry per key. -/
abbrev Record := List (String × String)

/-- `d[k] = v` on a Python dict: update the first entry with key `k` in
place, else append a new entry at the end. -/
def dictSet (k v : String) : Record → Record
  | [] => [(k, v)]
  | (k', v') :: rest =>
    if k' = k then (k, v) :: rest
    else (k', v') :: dictSet k v rest

/-- `d.get(k)`: the value at key `k`, if present. -/
def dictGet (k : String) : Record → Option String
  | [] => none
  | (k', v') :: rest => if k' = k then some v' else dictGet k rest

theorem dictGet_dictSet_self (k v : String) :
    ∀ d : Record, dictGet k (dictSet k v d) = some v := by
  intro d
  induction d with
  | nil => simp [dictSet, dictGet]
  | cons p rest ih =>
    by_cases h : p.1 = k
    · simp [dictSet, dictGet, h]
    · simp [dictSet, dictGet, h, ih]

theorem dictGet_dictSet_ne (k v k' : String) (hne : k' ≠ k) :
    ∀ d : Record, dictGet k' (dictSet k v d) = dictGet k' d := by
  have hkk : k ≠ k' := fun h => hne h.symm
  intro d
  induction d with
  | nil => simp [dictSet, dictGet, hkk]
  | cons p rest ih =>
    by_cases h : p.1 = k
    · have hp : p.1 ≠ k' := by rw [h]; exact hkk
      simp [dictSet, dictGet, h, hkk, hp]
    · simp only [dictSet, if_neg h]
      by_cases h' : p.1 = k'
      · simp [dictGet, h']
      · simp [dictGet, h', ih]

/-- Every key of `dictSet k v d` is `k` or a key of `d`. -/
theorem key_of_dictSet (k v : String) :
    ∀ (d : Record) (p : String × String), p ∈ dictSet k v d →
      p.1 = k ∨ ∃ q ∈ d, p.1 = q.1 := by
  intro d
  induction d with
  | nil => intro p hp; simp [dictSet] at hp; simp [hp]
  | cons q rest ih =>
    intro p hp
    by_cases h : q.1 = k
    · simp only [dictSet, if_pos h, List.mem_cons] at hp
      rcases hp with hp | hp
      · left; simp [hp]
      · right; exact ⟨p, List.mem_cons_of_mem q hp, rfl⟩
    · simp only [dictSet, if_neg h, List.mem_cons] at hp
      rcases hp with hp | hp
      · right; exact ⟨q, List.mem_cons_self q rest, by simp [hp]⟩
      · rcases ih p hp with h' | ⟨q', hq', h'⟩
        · left; exact h'
        · right; exact ⟨q', List.mem_cons_of_mem q hq', h'⟩

/-- `value.strip()`: drop leading and trailing whitespace. -/
def pyStrip (s : String) : String :=
  ⟨((s.data.dropWhile Char.isWhitespace).reverse.dropWhile
      Char.isWhitespace).reverse⟩

/-- One pass of `re.sub(r'\s+', ' ', value)` over the characters:
collapse every run of whitespace into a single space. -/
def collapseWSAux : Bool → List Char → List Char
  | _, [] => []
  | inRun, c :: cs =>
    if c.isWhitespace then
      if inRun then collapseWSAux true cs
      else ' ' :: collapseWSAux true cs
    else c :: collapseWSAux false cs

/-- `re.sub(r'\s+', ' ', value)` (`mabelast.py` line 203). -/
def collapseWS (s : String) : String := ⟨collapseWSAux false s.data⟩

/-- `value = re.sub(r'\s+', ' ', column.text.strip())` (lines 202-203). -/
def processCell (s : String) : String := collapseWS (pyStrip s)

/-- Does `needle` occur at the head of `hay`? -/
def matchesAt : List Char → List Char → Bool
  | [], _ => true
  | _ :: _, [] => false
  | a :: as, b :: bs => a == b && matchesAt as bs

/-- Python's `needle in hay` on strings: substring occurrence. -/
def containsSeq (needle : List Char) : List Char → Bool
  | [] => matchesAt needle []
  | b :: bs => matchesAt needle (b :: bs) || containsSeq needle bs

/-- `"Сравнить" in header` (`mabelast.py` line 201). -/
def hasCompare (k : String) : Bool := containsSeq "Сравнить".data k.data

/-- `if header and (not "Сравнить" in header)` (line 201): the header is
non-empty and does not contain the comparison label. -/
def goodHeader (h : String) : Bool := !(h == "") && !(hasCompare h)

/-! ## The trim-table parser (`parse_car_generation_page`) -/

/-- One `<tr>` of the matched table: its `<th>` cells in document order
(text and whether the cell carries a `colspan` attribute), and the texts
of its `<td>` cells. -/
structure Row where
  ths : List (String × Bool)
  tds : List String
deriving Repr, DecidableEq, Inhabited

/-- `row.find('th', colspan=True)` (line 193): the text of the first
`<th>` cell of the row that has a `colspan` attribute. -/
def rowColspanTh (r : Row) : Option String :=
  (r.ths.find? (fun p => p.2)).map Prod.fst

/-- `[header.text.strip() for header in rows[0].find_all('th')]`
(line 189): all `<th>` texts of the header row, stripped. -/
def rowHeaders (r : Row) : List String := r.ths.map (fun p => pyStrip p.1)

/-- The six placeholder fields assigned before the table lookup
(`mabelast.py` lines 174-179). -/
def initFields : List String :=
  ["Общее", "Комплектация", "Период выпуска",
   "Рекомендованная цена, руб.", "Марка двигателя", "Марка кузова"]

/-- The fields reset to `"-"` after each data-row append
(`mabelast.py` lines 209-214). -/
def resetFields : List String :=
  ["Комплектация", "Период выпуска", "Рекомендованная цена, руб.",
   "Марка двигателя", "Марка кузова", "Цена*"]

/-- Assign `"-"` to each listed key in order. -/
def setDashes (d : Record) : List String → Record
  | [] => d
  | k :: ks => setDashes (dictSet k "-" d) ks

/-- The cell loop `for i, column in enumerate(columns)` (lines 198-204),
with `i` starting at `i0`: a cell at index `i < len(headers)` whose header
is non-empty and free of the comparison label assigns the normalised cell
text to that header. -/
def applyCellsFrom (headers : List String) : Nat → List String → Record → Record
  | _, [], d => d
  | i, c :: cs, d =>
    let d' :=
      if i < headers.length then
        let hd := headers.getD i ""
        if goodHeader hd then dictSet hd (processCell c) d else d
      else d
    applyCellsFrom headers (i + 1) cs d'

/-- The whole cell loop of one data row. -/
def applyCells (headers : List String) (tds : List String) (d : Record) : Record :=
  applyCellsFrom headers 0 tds d

/-- The row loop `for row in rows[1:]` (lines 191-214), threading the
working dict `d` and the accumulator `acc`: a row with a `colspan` `<th>`
updates the running section label `"Общее"` and emits nothing; any other
row runs the cell loop, appends a copy of the dict, then resets
`resetFields` to `"-"`. Returns the final dict and the accumulator. -/
def processRows (headers : List String) :
    List Row → Record → List Record → Record × List Record
  | [], d, acc => (d, acc)
  | r :: rs, d, acc =>
    match rowColspanTh r with
    | some t => processRows headers rs (dictSet "Общее" (pyStrip t) d) acc
    | none =>
      let d1 := applyCells headers r.tds d
      processRows headers rs (setDashes d1 resetFields) (acc ++ [d1])

/-- The observable outcome of one `parse_car_generation_page` call:
the records it appended to `all_data` (in order), whether it called
`save_data_to_excel` and refreshed `last_save_time` (lines 218-220), and
whether it raised an uncaught exception. -/
structure GenOutcome where
  appendedRecs : List Record
  saved : Bool
  raised : Bool
deriving Repr, DecidableEq

/-- `parse_car_generation_page` (`mabelast.py` lines 162-220) over an
abstract fetched page. `response` is `none` when `fetch_url` failed, and
otherwise carries the result of the table lookup (line 172): `none` when no
table matches, else the table's rows. `elapsed` is `time.time() -
last_save_time` in whole seconds at the save check.

The fetch-failure path returns before touching `data`; the no-table path
appends one fallback record and returns before the save check (line 184);
an empty row list raises `IndexError` at `rows[0]` (line 189) before any
append; otherwise the rows after the header row are processed and the
save check runs. -/
def parse_car_generation_page (response : Option (Option (List Row)))
    (data : Record) (elapsed : Nat) : GenOutcome :=
  match response with
  | none => ⟨[], false, false⟩
  | some tableFind =>
    let d0 := setDashes data initFields
    match tableFind with
    | none => ⟨[d0], false, false⟩
    | some rows =>
      match rows with
      | [] => ⟨[], false, true⟩
      | r0 :: rest =>
        let headers := rowHeaders r0
        let pr := processRows headers rest d0 []
        ⟨pr.2, decide (SAVE_INTERVAL ≤ elapsed), false⟩

theorem dictGet_setDashes_not_mem (k : String) :
    ∀ (ks : List String) (d : Record), k ∉ ks →
      dictGet k (setDashes d ks) = dictGet k d := by
  intro ks
  induction ks with
  | nil => intro d _; rfl
  | cons k' ks' ih =>
    intro d hk
    have hne : k ≠ k' := fun h => hk (h ▸ List.mem_cons_self k' ks')
    have hk' : k ∉ ks' := fun h => hk (List.mem_cons_of_mem k' h)
    rw [setDashes, ih _ hk', dictGet_dictSet_ne k' "-" k hne]

theorem dictGet_setDashes_mem (k : String) :
    ∀ (ks : List String) (d : Record), k ∈ ks →
      dictGet k (setDashes d ks) = some "-" := by
  intro ks
  induction ks with
  | nil => intro d h; cases h
  | cons k' ks' ih =>
    intro d hk
    by_cases h : k ∈ ks'
    · rw [setDashes]; exact ih _ h
    · have hkk' : k = k' := by
        rcases List.mem_cons.mp hk with h' | h'
        · exact h'
        · exact absurd h' h
      subst hkk'
      rw [setDashes, dictGet_setDashes_not_mem k ks' _ h,
        dictGet_dictSet_self]

/-- **C4.** A generation page that is fetched successfully but has no table
matching the selector appends exactly one record — the inherited ancestor
context extended with each trim-specific placeholder field set to `"-"` —
and nothing else, performs no save, and raises nothing. Keys outside the
placeholder set keep their value from the inherited context. -/
theorem parse_no_table_fallback (data : Record) (elapsed : Nat) :
    parse_car_generation_page (some none) data elapsed
      = ⟨[setDashes data initFields], false, false⟩
    ∧ (∀ k, k ∈ initFields → dictGet k (setDashes data initFields) = some "-")
    ∧ (∀ k, k ∉ initFields →
        dictGet k (setDashes data initFields) = dictGet k data) := by
  refine ⟨rfl, ?_, ?_⟩
  · intro k hk; exact dictGet_setDashes_mem k initFields data hk
  · intro k hk; exact dictGet_setDashes_not_mem k initFields data hk

/-- Witness for C4 on the context `{"Марка": "BMW"}`. -/
theorem parse_no_table_fallback_witness :
    parse_car_generation_page (some none) [("Марка", "BMW")] 0
      = ⟨[setDashes [("Марка", "BMW")] initFields], false, false⟩
    ∧ dictGet "Комплектация" (setDashes [("Марка", "BMW")] initFields)
        = some "-"
    ∧ dictGet "Марка" (setDashes [("Марка", "BMW")] initFields)
        = some "BMW" := by
  refine ⟨(parse_no_table_fallback [("Марка", "BMW")] 0).1,
    (parse_no_table_fallback [("Марка", "BMW")] 0).2.1 _ (by decide), ?_⟩
  rw [(parse_no_table_fallback [("Марка", "BMW")] 0).2.2 "Марка" (by decide)]
  rfl

/-- **C7, counterexample.** A generation-page task that finishes on the
no-table path with 20 seconds elapsed since the last save — at least the
save interval — does *not* write the accumulator snapshot: the claim that
every finished task triggers the time-based save check is false, because
the no-table path returns at line 184 before the check at line 218. -/
theorem parse_save_check_counterexample :
    SAVE_INTERVAL ≤ 20
    ∧ (parse_car_generation_page (some none) [] 20).saved = false := by
  exact ⟨by decide, rfl⟩

/-- **C7, amended.** The periodic save check (elapsed time since the last
save ≥ `SAVE_INTERVAL`, lines 218-220) runs exactly on the path where a
table was found with a non-empty row list and its rows were processed; the
fetch-failed, no-table and empty-row-list paths finish without reaching
the check, so they never save. -/
theorem parse_save_check_paths (data : Record) (elapsed : Nat)
    (r0 : Row) (rest : List Row) :
    (parse_car_generation_page none data elapsed).saved = false
    ∧ (parse_car_generation_page (some none) data elapsed).saved = false
    ∧ (parse_car_generation_page (some (some [])) data elapsed).saved = false
    ∧ (parse_car_generation_page (some (some (r0 :: rest))) data elapsed).saved
        = decide (SAVE_INTERVAL ≤ elapsed) := by
  exact ⟨rfl, rfl, rfl, rfl⟩

/-! ## The parent stage's future loop (`parse_car_model_page`) -/

/-- The `for future in as_completed(futures): try: future.result() except:
log` loop (`mabelast.py` lines 156-160), over the outcomes of the child
generation-page tasks: every child is awaited — a raising child is logged
and does not stop the loop — and the pair (children processed, errors
logged) is returned. -/
def awaitChildren (outs : List GenOutcome) : Nat × Nat :=
  outs.foldl (fun acc o => (acc.1 + 1, acc.2 + if o.raised then 1 else 0)) (0, 0)

theorem awaitChildren_foldl (outs : List GenOutcome) :
    ∀ p : Nat × Nat,
      outs.foldl (fun acc o => (acc.1 + 1, acc.2 + if o.raised then 1 else 0)) p
        = (p.1 + outs.length,
           p.2 + (outs.filter (fun o => o.raised)).length) := by
  induction outs with
  | nil => intro p; simp
  | cons o outs ih =>
    intro p
    rw [List.foldl_cons, ih]
    by_cases h : o.raised <;> simp [List.filter_cons, h] <;> omega

/-- Every child task is processed by the parent loop, raising or not. -/
theorem awaitChildren_processes_all (outs : List GenOutcome) :
    (awaitChildren outs).1 = outs.length := by
  rw [awaitChildren, awaitChildren_foldl]
  simp

/-- **C10.** A generation page whose matched table has an empty row list
makes `parse_car_generation_page` raise an uncaught exception at the
unguarded `rows[0]` header read (line 189): no record at all is appended —
neither the fallback record nor any data record — and no save happens.
The parent stage's future loop still awaits every sibling task: with such
a raising child among the children, all of them are processed and the
raising ones are merely counted as logged errors. -/
theorem parse_empty_rows_raises (data : Record) (elapsed : Nat)
    (before after : List GenOutcome) :
    parse_car_generation_page (some (some [])) data elapsed = ⟨[], false, true⟩
    ∧ (awaitChildren (before
        ++ parse_car_generation_page (some (some [])) data elapsed
        :: after)).1 = before.length + 1 + after.length := by
  refine ⟨rfl, ?_⟩
  rw [awaitChildren_processes_all]
  simp
  omega

theorem goodHeader_ne_empty {h : String} (hg : goodHeader h = true) :
    h ≠ "" := by
  intro he
  rw [he] at hg
  exact absurd hg (by decide)

theorem goodHeader_clean {h : String} (hg : goodHeader h = true) :
    hasCompare h = false := by
  have := (Bool.and_eq_true _ _).mp hg
  simpa using this.2

theorem nodup_getD_ne (l : List String) (hnd : l.Nodup) (i j : Nat)
    (hi : i < l.length) (hj : j < l.length) (hne : i ≠ j) :
    l.getD i "" ≠ l.getD j "" := by
  rw [List.getD_eq_getElem l "" hi, List.getD_eq_getElem l "" hj]
  intro h
  exact hne (hnd.getElem_inj_iff.mp h)

/-- Cells at in-range indices whose headers all differ from `k` leave the
value at key `k` unchanged (out-of-range cells never write anything). -/
theorem dictGet_applyCellsFrom_preserved (headers : List String) (k : String) :
    ∀ (cs : List String) (i0 : Nat) (d : Record),
      (∀ j, i0 ≤ j → j < i0 + cs.length → j < headers.length →
        headers.getD j "" ≠ k) →
      dictGet k (applyCellsFrom headers i0 cs d) = dictGet k d := by
  intro cs
  induction cs with
  | nil => intro i0 d _; rfl
  | cons c cs ih =>
    intro i0 d hk
    simp only [applyCellsFrom]
    rw [ih (i0 + 1) _ (fun j h1 h2 h3 => hk j (by omega)
      (by simp only [List.length_cons]; omega) h3)]
    split
    next hi =>
      split
      · refine dictGet_dictSet_ne _ _ _ ?_ d
        exact fun h => (hk i0 (Nat.le_refl _)
          (by simp only [List.length_cons]; omega) hi) h.symm
      · rfl
    next hi => rfl

/-- With pairwise-distinct headers, the cell at index `i` (whose header is
non-empty and free of the comparison label) ends up stored under its
header, normalised. -/
theorem dictGet_applyCellsFrom_hit (headers : List String)
    (hnd : headers.Nodup) :
    ∀ (cs : List String) (i0 i : Nat) (d : Record),
      i0 ≤ i → i < i0 + cs.length → i < headers.length →
      goodHeader (headers.getD i "") = true →
      dictGet (headers.getD i "") (applyCellsFrom headers i0 cs d)
        = some (processCell (cs.getD (i - i0) "")) := by
  intro cs
  induction cs with
  | nil => intro i0 i d h1 h2 _ _; simp only [List.length_nil] at h2; omega
  | cons c cs ih =>
    intro i0 i d hle hlt hlen hg
    simp only [List.length_cons] at hlt
    simp only [applyCellsFrom]
    by_cases heq : i = i0
    · subst heq
      rw [if_pos hlen, if_pos hg]
      rw [dictGet_applyCellsFrom_preserved headers (headers.getD i "")
        cs (i + 1) _ ?hne]
      · rw [dictGet_dictSet_self]
        have : i - i = 0 := by omega
        rw [this]
        rfl
      case hne =>
        intro j h1 h2 hjl
        exact nodup_getD_ne headers hnd j i hjl hlen (by omega)
    · have h1 : i0 + 1 ≤ i := by omega
      have h2 : i < (i0 + 1) + cs.length := by omega
      rw [ih (i0 + 1) i _ h1 h2 hlen hg]
      have h3 : i - i0 = (i - (i0 + 1)) + 1 := by omega
      rw [h3, List.getD_cons_succ]

/-- The per-row thread of the data-row path: emit the post-cell-loop dict,
then continue from its `resetFields`-dashed copy. -/
def threadRows (headers : List String) : List Row → Record → List Record
  | [], _ => []
  | r :: rs, d =>
    let d1 := applyCells headers r.tds d
    d1 :: threadRows headers rs (setDashes d1 resetFields)

theorem processRows_no_colspan (headers : List String) :
    ∀ (rows : List Row) (d : Record) (acc : List Record),
      (∀ r ∈ rows, rowColspanTh r = none) →
      (processRows headers rows d acc).2 = acc ++ threadRows headers rows d := by
  intro rows
  induction rows with
  | nil => intro d acc _; simp [processRows, threadRows]
  | cons r rs ih =>
    intro d acc hno
    have hr : rowColspanTh r = none := hno r (List.mem_cons_self r rs)
    simp only [processRows, hr]
    rw [ih _ _ (fun r' h => hno r' (List.mem_cons_of_mem r h))]
    simp [threadRows]

theorem threadRows_length (headers : List String) :
    ∀ (rows : List Row) (d : Record),
      (threadRows headers rows d).length = rows.length := by
  intro rows
  induction rows with
  | nil => intro d; rfl
  | cons r rs ih => intro d; simp [threadRows, ih]

/-- Each emitted record of the data-row thread is the cell loop applied to
the matching row's cells, from some working dict. -/
theorem threadRows_getD (headers : List String) :
    ∀ (rows : List Row) (d : Record) (j : Nat), j < rows.length →
      ∃ d', (threadRows headers rows d).getD j []
        = applyCells headers (rows.getD j default).tds d' := by
  intro rows
  induction rows with
  | nil => intro d j hj; exact absurd hj (by simp)
  | cons r rs ih =>
    intro d j hj
    cases j with
    | zero => exact ⟨d, rfl⟩
    | succ j =>
      have := ih (setDashes (applyCells headers r.tds d) resetFields) j
        (by simpa using hj)
      simpa [threadRows] using this

/-- All keys of the record are free of the comparison label. -/
abbrev cleanKeys (d : Record) : Prop := ∀ p ∈ d, hasCompare p.1 = false

theorem cleanKeys_dictSet {d : Record} (hd : cleanKeys d) {k : String}
    (hk : hasCompare k = false) (v : String) : cleanKeys (dictSet k v d) := by
  intro p hp
  rcases key_of_dictSet k v d p hp with h | ⟨q, hq, h⟩
  · rw [h]; exact hk
  · rw [h]; exact hd q hq

theorem cleanKeys_setDashes :
    ∀ (ks : List String) {d : Record}, cleanKeys d →
      (∀ k ∈ ks, hasCompare k = false) → cleanKeys (setDashes d ks) := by
  intro ks
  induction ks with
  | nil => intro d h _; exact h
  | cons k ks ih =>
    intro d h hks
    rw [setDashes]
    exact ih (cleanKeys_dictSet h (hks k (List.mem_cons_self _ _)) "-")
      (fun k' hk' => hks k' (List.mem_cons_of_mem _ hk'))

theorem cleanKeys_applyCellsFrom (headers : List String) :
    ∀ (cs : List String) (i : Nat) {d : Record}, cleanKeys d →
      cleanKeys (applyCellsFrom headers i cs d) := by
  intro cs
  induction cs with
  | nil => intro i d h; exact h
  | cons c cs ih =>
    intro i d h
    simp only [applyCellsFrom]
    apply ih
    split
    · split
      · next hg => exact cleanKeys_dictSet h (goodHeader_clean hg) _
      · exact h
    · exact h

/-- Every record the row loop appends has comparison-label-free keys, as
long as the incoming dict and accumulator do: the loop only ever writes
the section key, the reset keys, and headers that pass the filter. -/
theorem cleanKeys_processRows (headers : List String) :
    ∀ (rows : List Row) (d : Record) (acc : List Record),
      cleanKeys d → (∀ rec ∈ acc, cleanKeys rec) →
      ∀ rec ∈ (processRows headers rows d acc).2, cleanKeys rec := by
  intro rows
  induction rows with
  | nil => intro d acc _ hacc rec hrec; exact hacc rec hrec
  | cons r rs ih =>
    intro d acc hd hacc rec hrec
    cases hcol : rowColspanTh r with
    | some t =>
      simp only [processRows, hcol] at hrec
      exact ih _ _ (cleanKeys_dictSet hd (by decide) _) hacc rec hrec
    | none =>
      simp only [processRows, hcol] at hrec
      have hd1 : cleanKeys (applyCells headers r.tds d) :=
        cleanKeys_applyCellsFrom headers r.tds 0 hd
      refine ih _ _ (cleanKeys_setDashes resetFields hd1 (by decide)) ?_ rec hrec
      intro rec' hrec'
      rcases List.mem_append.mp hrec' with h | h
      · exact hacc rec' h
      · rw [List.mem_singleton.mp h]
        exact hd1

/-- The cell loop never writes a key that is not a header: the value at
such a key is unchanged. -/
theorem dictGet_applyCells_not_header (headers : List String) (k : String)
    (hk : ∀ h ∈ headers, h ≠ k) (tds : List String) (d : Record) :
    dictGet k (applyCells headers tds d) = dictGet k d := by
  apply dictGet_applyCellsFrom_preserved
  intro j _ _ hj
  rw [List.getD_eq_getElem headers "" hj]
  exact hk _ (List.getElem_mem hj)

/-- A key that is neither a header nor a reset field keeps its value from
the working dict in every record the data-row thread emits. -/
theorem threadRows_context (headers : List String) (k : String)
    (hk : ∀ h ∈ headers, h ≠ k) (hr : k ∉ resetFields) :
    ∀ (rows : List Row) (d : Record) (j : Nat), j < rows.length →
      dictGet k ((threadRows headers rows d).getD j []) = dictGet k d := by
  intro rows
  induction rows with
  | nil => intro d j hj; exact absurd hj (by simp)
  | cons r rs ih =>
    intro d j hj
    cases j with
    | zero =>
      show dictGet k (applyCells headers r.tds d) = dictGet k d
      exact dictGet_applyCells_not_header headers k hk r.tds d
    | succ j =>
      have h1 := ih (setDashes (applyCells headers r.tds d) resetFields) j
        (by simpa using hj)
      simp only [threadRows, List.getD_cons_succ]
      rw [h1, dictGet_setDashes_not_mem k resetFields _ hr,
        dictGet_applyCells_not_header headers k hk r.tds d]

/-- **C5.** A generation page whose table has a header row followed by data
rows with no section-header (`colspan`) row appends exactly one record per
data row; in each record, the cell at index `i` of its row (when `i` is in
range of both the row and the header list, and the header is non-empty and
free of the comparison label "Сравнить") is stored under its header name
with whitespace normalised; every record is merged with the ancestor
context — any context key that no header shadows and that is outside the
placeholder and reset field sets keeps its inherited value in every
appended record; and — provided the inherited context's keys are free of
the comparison label, with pairwise-distinct headers — every key of every
appended record is free of the comparison label, so a "Сравнить" header
column never becomes a key. -/
theorem parse_table_data_rows (data : Record) (r0 : Row) (dataRows : List Row)
    (elapsed : Nat)
    (hno : ∀ r ∈ dataRows, rowColspanTh r = none)
    (hnd : (rowHeaders r0).Nodup)
    (hctx : cleanKeys data) :
    (parse_car_generation_page (some (some (r0 :: dataRows))) data
        elapsed).appendedRecs.length = dataRows.length
    ∧ (∀ j, j < dataRows.length → ∀ i,
        i < (dataRows.getD j default).tds.length →
        i < (rowHeaders r0).length →
        goodHeader ((rowHeaders r0).getD i "") = true →
        dictGet ((rowHeaders r0).getD i "")
          ((parse_car_generation_page (some (some (r0 :: dataRows))) data
            elapsed).appendedRecs.getD j [])
          = some (processCell ((dataRows.getD j default).tds.getD i "")))
    ∧ (∀ k, (∀ h ∈ rowHeaders r0, h ≠ k) → k ∉ initFields → k ∉ resetFields →
        ∀ j, j < dataRows.length →
          dictGet k ((parse_car_generation_page (some (some (r0 :: dataRows)))
            data elapsed).appendedRecs.getD j [])
            = dictGet k data)
    ∧ (∀ rec ∈ (parse_car_generation_page (some (some (r0 :: dataRows))) data
          elapsed).appendedRecs, cleanKeys rec) := by
  have hout : (parse_car_generation_page (some (some (r0 :: dataRows))) data
      elapsed).appendedRecs
      = threadRows (rowHeaders r0) dataRows (setDashes data initFields) := by
    show (processRows (rowHeaders r0) dataRows
      (setDashes data initFields) []).2 = _
    rw [processRows_no_colspan _ dataRows _ [] hno]
    rfl
  refine ⟨?_, ?_, ?_, ?_⟩
  · rw [hout, threadRows_length]
  · intro j hj i hi hih hg
    rw [hout]
    obtain ⟨d', hd'⟩ := threadRows_getD (rowHeaders r0) dataRows
      (setDashes data initFields) j hj
    rw [hd']
    have := dictGet_applyCellsFrom_hit (rowHeaders r0) hnd
      (dataRows.getD j default).tds 0 i d' (Nat.zero_le i)
      (by simpa using hi) hih hg
    simpa [applyCells] using this
  · intro k hkh hki hkr j hj
    rw [hout, threadRows_context (rowHeaders r0) k hkh hkr dataRows _ j hj,
      dictGet_setDashes_not_mem k initFields data hki]
  · intro rec hrec
    have hall := cleanKeys_processRows (rowHeaders r0) dataRows
      (setDashes data initFields) []
      (cleanKeys_setDashes initFields hctx (by decide)) (by simp)
    apply hall
    exact hrec

/-- Witness for C5: a header row `["Комплектация", "Сравнить", "Мощность"]`
and one data row; the record count, the mapped third cell (whitespace
collapsed), the inherited context value under "Марка", and
comparison-label-free record keys. -/
theorem parse_table_data_rows_witness :
    (parse_car_generation_page
      (some (some [⟨[("Комплектация", false), ("Сравнить", false),
                     ("Мощность", false)], []⟩,
                   ⟨[], ["GT 1.5", "x", " 150  л.с. "]⟩]))
      [("Марка", "BMW")] 0).appendedRecs.length = 1
    ∧ dictGet "Мощность"
        ((parse_car_generation_page
          (some (some [⟨[("Комплектация", false), ("Сравнить", false),
                         ("Мощность", false)], []⟩,
                       ⟨[], ["GT 1.5", "x", " 150  л.с. "]⟩]))
          [("Марка", "BMW")] 0).appendedRecs.getD 0 [])
        = some "150 л.с."
    ∧ dictGet "Марка"
        ((parse_car_generation_page
          (some (some [⟨[("Комплектация", false), ("Сравнить", false),
                         ("Мощность", false)], []⟩,
                       ⟨[], ["GT 1.5", "x", " 150  л.с. "]⟩]))
          [("Марка", "BMW")] 0).appendedRecs.getD 0 [])
        = dictGet "Марка" [("Марка", "BMW")]
    ∧ (∀ rec ∈ (parse_car_generation_page
          (some (some [⟨[("Комплектация", false), ("Сравнить", false),
                         ("Мощность", false)], []⟩,
                       ⟨[], ["GT 1.5", "x", " 150  л.с. "]⟩]))
          [("Марка", "BMW")] 0).appendedRecs, cleanKeys rec) := by
  have h := parse_table_data_rows [("Марка", "BMW")]
    ⟨[("Комплектация", false), ("Сравнить", false), ("Мощность", false)], []⟩
    [⟨[], ["GT 1.5", "x", " 150  л.с. "]⟩] 0
    (by decide) (by decide) (by decide)
  refine ⟨h.1, ?_, ?_, h.2.2.2⟩
  · exact h.2.1 0 (by decide) 2 (by decide) (by decide) (by decide)
  · exact h.2.2.1 "Марка" (by decide) (by decide) (by decide) 0 (by decide)

/-- **C6, counterexample.** A table with the single header `"X"` (not one
of the fixed reset fields), a first data row with cell `"a"` and a second
data row with no cells: the second emitted record still holds `X = "a"`,
carried over from the first row. A value other than the running section
label `"Общее"` thus survives from one emitted data-row record to the
next, refuting the claim that after each append every trim-specific field
is reset so that only the section label carries forward. -/
theorem parse_reset_counterexample :
    (parse_car_generation_page
      (some (some [⟨[("X", false)], []⟩, ⟨[], ["a"]⟩, ⟨[], []⟩]))
      [] 0).appendedRecs.length = 2
    ∧ dictGet "X"
        ((parse_car_generation_page
          (some (some [⟨[("X", false)], []⟩, ⟨[], ["a"]⟩, ⟨[], []⟩]))
          [] 0).appendedRecs.getD 1 [])
        = some "a"
    ∧ "X" ≠ "Общее" ∧ "X" ∉ resetFields := by
  refine ⟨by decide, by decide, by decide, by decide⟩

/-- **C6, amended.** Within one table, after each data-row record is
appended, the fixed trim-specific reset fields (`resetFields`:
"Комплектация", "Период выпуска", "Рекомендованная цена, руб.",
"Марка двигателя", "Марка кузова", "Цена*") are all `"-"` in the working
dict before the next row is processed — fields outside this fixed set,
such as other header-mapped columns, are not reset and may carry forward —
and a section-header row (a row with a `colspan` `<th>`) only updates the
running section label `"Общее"` and appends no record. -/
theorem processRows_reset_and_section (headers : List String) (r : Row)
    (rs : List Row) (d : Record) (acc : List Record) :
    (rowColspanTh r = none →
      processRows headers (r :: rs) d acc
        = processRows headers rs
            (setDashes (applyCells headers r.tds d) resetFields)
            (acc ++ [applyCells headers r.tds d])
      ∧ ∀ k ∈ resetFields,
          dictGet k (setDashes (applyCells headers r.tds d) resetFields)
            = some "-")
    ∧ (∀ t, rowColspanTh r = some t →
        processRows headers (r :: rs) d acc
          = processRows headers rs (dictSet "Общее" (pyStrip t) d) acc) := by
  constructor
  · intro hcol
    constructor
    · simp only [processRows, hcol]
    · intro k hk
      exact dictGet_setDashes_mem k resetFields _ hk
  · intro t hcol
    simp only [processRows, hcol]

/-- Witness for the amended C6: a data-row step and a section-header step
at concrete rows. -/
theorem processRows_reset_and_section_witness :
    (processRows ["X"] [⟨[], ["a"]⟩] [] []
      = processRows ["X"] []
          (setDashes (applyCells ["X"] ["a"] []) resetFields)
          ([] ++ [applyCells ["X"] ["a"] []]))
    ∧ dictGet "Комплектация"
        (setDashes (applyCells ["X"] ["a"] []) resetFields) = some "-"
    ∧ processRows ["X"] [⟨[(" Двигатель ", true)], []⟩] [] []
        = processRows ["X"] []
            (dictSet "Общее" (pyStrip " Двигатель ") []) [] := by
  refine ⟨?_, ?_, ?_⟩
  · exact ((processRows_reset_and_section ["X"] ⟨[], ["a"]⟩ [] [] []).1
      (by decide)).1
  · exact ((processRows_reset_and_section ["X"] ⟨[], ["a"]⟩ [] [] []).1
      (by decide)).2 _ (by decide)
  · exact (processRows_reset_and_section ["X"] ⟨[(" Двигатель ", true)], []⟩
      [] [] []).2 " Двигатель " (by decide)

/-! ## The persister (`save_data_to_excel`) -/

/-- The columns of `pd.DataFrame(all_data)`: the union of all keys seen
across the records, in first-seen order. -/
def dfColumns (recs : List Record) : List String :=
  recs.foldl (fun cols r =>
    r.foldl (fun cols p => if p.1 ∈ cols then cols else cols ++ [p.1]) cols) []

/-- The spreadsheet written by `df.to_excel(FILENAME, index=False)`: one
header row, one data row per record; a record lacking some column yields
an absent (NaN) cell, modelled as `none`. -/
structure ExcelFile where
  header : List String
  rows : List (List (Option String))
deriving Repr, DecidableEq

/-- `save_data_to_excel` (`mabelast.py` lines 222-229) as a function from
the accumulator snapshot to the file contents written. -/
def save_data_to_excel (all_data : List Record) : ExcelFile :=
  ⟨dfColumns all_data,
   all_data.map (fun r => (dfColumns all_data).map (fun c => dictGet c r))⟩

/-- `df.to_excel` truncates and rewrites `FILENAME` whole: the file after
a save does not depend on what the file held before. -/
def write_excel (prev : Option ExcelFile) (all_data : List Record) : ExcelFile :=
  save_data_to_excel all_data

/-- **C8.** Running the save twice in succession with no records appended
in between produces the same file contents both times — the second save
overwrites the first's file whole, and indeed the result is independent of
whatever file existed before either save — and each save's file has
exactly one data row per record in the accumulator at that save (header:
the union of observed field names). -/
theorem save_twice_same_file (prev1 prev2 : Option ExcelFile)
    (all_data : List Record) :
    write_excel (some (write_excel prev1 all_data)) all_data
      = write_excel prev2 all_data
    ∧ (write_excel prev1 all_data).rows.length = all_data.length
    ∧ (write_excel prev1 all_data).header = dfColumns all_data := by
  refine ⟨rfl, ?_, rfl⟩
  simp [write_excel, save_data_to_excel]

/-! ## Lock-granularity concurrency model (`all_data` / `file_lock`) -/

/-- One `file_lock` critical section on the shared state: appending one
record to `all_data` (`mabelast.py` lines 182-183 and 206-207) or one
whole snapshot-and-write `save_data_to_excel` call (lines 222-229). The
single shared lock serializes these, so each is one atomic step of the
interleaving semantics; a record is appended whole, never field by
field. -/
inductive Op where
  | append (rec : Record)
  | save
deriving Repr, DecidableEq

/-- The process-wide shared state the lock guards: the `all_data`
accumulator and the output file. -/
structure SysState where
  all_data : List Record
  file : Option ExcelFile
deriving Repr, DecidableEq

/-- Execute one critical section. -/
def doOp (st : SysState) : Op → SysState
  | .append rec => ⟨st.all_data ++ [rec], st.file⟩
  | .save => ⟨st.all_data, some (save_data_to_excel st.all_data)⟩

/-- Run a schedule over the worker threads' pending critical sections: at
each step the scheduled thread runs its next operation (a step naming a
finished or nonexistent thread is a no-op). Returns the final state and
each thread's remaining operations. -/
def runSched : List (List Op) → List Nat → SysState → SysState × List (List Op)
  | threads, [], st => (st, threads)
  | threads, t :: ts, st =>
    match threads.getD t [] with
    | [] => runSched threads ts st
    | op :: rest => runSched (threads.set t rest) ts (doOp st op)

/-- The records an operation list will append, in order. -/
def appendsOf : List Op → List Record
  | [] => []
  | .append rec :: ops => rec :: appendsOf ops
  | .save :: ops => appendsOf ops

/-- Total number of records the threads will append. -/
def totalAppends (threads : List (List Op)) : Nat :=
  (threads.map (fun ops => (appendsOf ops).length)).sum

/-- Total number of times the threads will append the record `rec`. -/
def totalCount (rec : Record) (threads : List (List Op)) : Nat :=
  (threads.map (fun ops => (appendsOf ops).count rec)).sum

theorem sum_map_set (g : List Op → Nat) (dlt : Nat) :
    ∀ (threads : List (List Op)) (t : Nat) (op : Op) (rest : List Op),
      threads.getD t [] = op :: rest →
      g (op :: rest) = dlt + g rest →
      dlt + (List.map g (threads.set t rest)).sum
        = (List.map g threads).sum := by
  intro threads
  induction threads with
  | nil => intro t op rest h _; simp at h
  | cons l ls ih =>
    intro t op rest h hg
    cases t with
    | zero =>
      have hl : l = op :: rest := by simpa using h
      subst hl
      simp only [List.set, List.map_cons, List.sum_cons, hg]
      omega
    | succ t =>
      have h' : ls.getD t [] = op :: rest := by simpa using h
      simp only [List.set, List.map_cons, List.sum_cons]
      have := ih t op rest h' hg
      omega

/-- Each scheduler step conserves `length of all_data + appends still
pending` and, per record value, `count in all_data + pending appends`. -/
theorem runSched_conserves :
    ∀ (sched : List Nat) (threads : List (List Op)) (st : SysState),
      (runSched threads sched st).1.all_data.length
          + totalAppends (runSched threads sched st).2
        = st.all_data.length + totalAppends threads
      ∧ ∀ rec : Record,
          ((runSched threads sched st).1.all_data.count rec
              + totalCount rec (runSched threads sched st).2
            = st.all_data.count rec + totalCount rec threads) := by
  intro sched
  induction sched with
  | nil => intro threads st; exact ⟨rfl, fun _ => rfl⟩
  | cons t ts ih =>
    intro threads st
    cases hth : threads.getD t [] with
    | nil =>
      simp only [runSched, hth]
      exact ih threads st
    | cons op rest =>
      simp only [runSched, hth]
      obtain ⟨h1, h2⟩ := ih (threads.set t rest) (doOp st op)
      have hstep : (doOp st op).all_data.length
          = st.all_data.length + (appendsOf [op]).length := by
        cases op <;> simp [doOp, appendsOf]
      have hstepc : ∀ rec : Record, (doOp st op).all_data.count rec
          = st.all_data.count rec + (appendsOf [op]).count rec := by
        intro rec
        cases op <;> simp [doOp, appendsOf, List.count_append]
      have hsum := sum_map_set (fun ops => (appendsOf ops).length)
        ((appendsOf [op]).length) threads t op rest hth
        (by cases op <;> simp [appendsOf] <;> omega)
      constructor
      · rw [h1, hstep]
        simp only [totalAppends] at hsum ⊢
        omega
      · intro rec
        have hsumc := sum_map_set (fun ops => (appendsOf ops).count rec)
          ((appendsOf [op]).count rec) threads t op rest hth
          (by cases op <;> simp [appendsOf, List.count_cons] <;> omega)
        rw [h2 rec, hstepc rec]
        simp only [totalCount] at hsumc ⊢
        omega

/-- **C9.** Under the lock-granularity interleaving semantics — every
`file_lock` critical section (one whole-record append, or one whole
snapshot-save, mirroring that both kinds of critical section share the one
lock) is a single atomic step — no append is ever lost under any
interleaving of the worker threads: once a schedule has drained every
thread, the accumulator has grown by exactly the total number of records
the threads append, and each record value occurs in the accumulator
exactly its initial count plus the number of times the threads append
it. -/
theorem interleaved_appends_never_lost (threads : List (List Op))
    (sched : List Nat) (st : SysState)
    (hdone : ∀ ops ∈ (runSched threads sched st).2, ops = []) :
    (runSched threads sched st).1.all_data.length
      = st.all_data.length + totalAppends threads
    ∧ ∀ rec : Record,
        (runSched threads sched st).1.all_data.count rec
          = st.all_data.count rec + totalCount rec threads := by
  have h := runSched_conserves sched threads st
  have hz : totalAppends (runSched threads sched st).2 = 0 := by
    apply List.sum_eq_zero
    intro x hx
    rcases List.mem_map.mp hx with ⟨ops, hops, hxe⟩
    rw [hdone ops hops] at hxe
    simpa [appendsOf] using hxe.symm
  constructor
  · have := h.1
    omega
  · intro rec
    have hzc : totalCount rec (runSched threads sched st).2 = 0 := by
      apply List.sum_eq_zero
      intro x hx
      rcases List.mem_map.mp hx with ⟨ops, hops, hxe⟩
      rw [hdone ops hops] at hxe
      simpa [appendsOf] using hxe.symm
    have := h.2 rec
    omega

/-- Witness for C9: two threads — one appending a record, one saving then
appending the same record — drained by the schedule `[1, 0, 1]`. -/
theorem interleaved_appends_never_lost_witness :
    (runSched [[Op.append [("k", "v")]], [Op.save, Op.append [("k", "v")]]]
        [1, 0, 1] ⟨[], none⟩).1.all_data.length
      = ([] : List Record).length
        + totalAppends [[Op.append [("k", "v")]],
                        [Op.save, Op.append [("k", "v")]]]
    ∧ (runSched [[Op.append [("k", "v")]], [Op.save, Op.append [("k", "v")]]]
        [1, 0, 1] ⟨[], none⟩).1.all_data.count [("k", "v")]
      = ([] : List Record).count [("k", "v")]
        + totalCount [("k", "v")]
            [[Op.append [("k", "v")]], [Op.save, Op.append [("k", "v")]]] := by
  have h := interleaved_appends_never_lost
    [[Op.append [("k", "v")]], [Op.save, Op.append [("k", "v")]]]
    [1, 0, 1] ⟨[], none⟩ (by decide)
  exact ⟨h.1, h.2 [("k", "v")]⟩
